import Mathlib

/-!
# Verification of the NWM RouteLink topology pipeline

This file is a shallow embedding, in Lean 4, of the graph-partitioning and
reach-decomposition core of the `route_link_fsspec` notebook.

The notebook itself defines `replace_downstreams` (normalization of the raw
downstream-reference column) and `organize_independent_networks` (the
orchestrator).  The `nhd_network` helper module it imports
(`extract_connections`, `reverse_network`, `reachable_network`,
`split_at_junction`, `dfs_decomposition`) is not part of the source tree, so
those stages are modelled from the specification text (each such definition
carries a doc comment starting with `Modelled from the spec:`).

The table is embedded as a list of rows.  A row holds the segment id (the
pandas index after `df.set_index("link")`), the downstream reference (the
`"to"` column) and an opaque auxiliary payload standing for all other columns
(coordinates etc.), which the core passes through but never interprets.
Machine integers of the source are embedded as `Int` (the ids are plain signed
integers; no arithmetic in the pipeline can overflow 64 bits, and the pandas
code performs exact integer arithmetic).
-/

/-- One row of the RouteLink attribute table after `df.set_index("link")`:
`id` is the index value (`link`), `to` is the downstream-reference column,
`aux` stands for every other (pass-through) column. -/
structure Row (α : Type) where
  id : Int
  toRef : Int
  aux : α
  deriving Repr, DecidableEq

/-- The per-row update performed by `replace_downstreams` on the `"to"` column.
`index` is the list of index values of the *original* table and `terminal_code`
the sentinel; both masks of the pandas code are computed from the original
table, so the two rewrites only depend on the original row. -/
def rd_step (index : List Int) (terminal_code : Int) (r : Row α) : Row α :=
  let t1 : Int := if r.toRef = terminal_code then r.id else r.toRef
  let t2 : Int := if r.toRef ∈ index then t1 else -t1
  { r with toRef := t2 }

/-- Embedding of the notebook's `replace_downstreams(data, downstream_col,
terminal_code)`:

* rows whose `"to"` equals `terminal_code` get `"to"` rewritten to their own
  index value (`new_data.loc[ds0_mask, downstream_col] = ds0_mask.index[ds0_mask]`);
* rows whose *original* `"to"` is not a member of the index get the (possibly
  already rewritten) `"to"` multiplied by `-1`
  (`new_data.loc[~data[downstream_col].isin(data.index), downstream_col] *= -1`).

The pandas frame is keyed by the index, both masks are computed on the
original `data`, and assignment is row-aligned, so the whole operation is the
row-wise map `rd_step` over the table. -/
def replace_downstreams (data : List (Row α)) (terminal_code : Int) :
    List (Row α) :=
  data.map (rd_step (data.map Row.id) terminal_code)

/-- Modelled from the spec: `nhd_network.extract_connections` is absent from
the source tree.  §4.2: "Output: Connections — a mapping from SegmentId to its
single downstream SegmentId, built by direct projection of (index, downstream
column) pairs."  The projection of the (already normalized) table. -/
def extract_connections (data : List (Row α)) : List (Int × Int) :=
  data.map (fun r => (r.id, r.toRef))

/-- Downstream lookup in the Connections association list (first matching
key; with a unique index every key occurs once). -/
def conn : List (Int × Int) → Int → Option Int
  | [], _ => none
  | (a, b) :: rest, n => if n = a then some b else conn rest n

/-- Modelled from the spec: `nhd_network.reverse_network` is absent from the
source tree.  §4.3: "for every (node, downstream) pair in Connections, append
node to the upstream list of downstream … Order within an upstream list must
be deterministic (source table order)."  `rconn conns n` is the ordered list
of upstream parents of `n`. -/
def rconn : List (Int × Int) → Int → List Int
  | [], _ => []
  | (a, b) :: rest, n => if b = n then a :: rconn rest n else rconn rest n

/-- The full node universe of the graph: every SegmentId occurring as a key
or as a value of Connections (original segments plus synthetic dangling
markers). -/
def nodesOf (conns : List (Int × Int)) : List Int :=
  (conns.map Prod.fst ++ conns.map Prod.snd).dedup

/-- A node with no real further downstream: self-loop (true outlet) or absent
from the keys (synthetic dangling/boundary marker).  These are the tailwater
roots of §4.4. -/
def isTerminal (conns : List (Int × Int)) (n : Int) : Bool :=
  match conn conns n with
  | none => true
  | some d => d == n

/-- Modelled from the spec: the root identification step of §4.4 ("identify
roots — SegmentIds that are self-loop or negative-marker outlets
(tailwaters)").  Roots are the terminal nodes of the universe. -/
def rootsOf (conns : List (Int × Int)) : List Int :=
  (nodesOf conns).filter (isTerminal conns)

/-- One breadth-first expansion step of the upstream traversal: add every
upstream parent of a node already collected. -/
def expandOnce (conns : List (Int × Int)) (s : List Int) : List Int :=
  (s ++ s.flatMap (rconn conns)).dedup

/-- Iterated breadth-first expansion (the fuel is the iteration count). -/
def reachSet (conns : List (Int × Int)) : Nat → List Int → List Int
  | 0, s => s
  | f + 1, s => reachSet conns f (expandOnce conns s)

/-- Modelled from the spec: the per-root traversal of §4.4 ("perform a
traversal over ReverseConnections (breadth-first or depth-first; result
membership is traversal-order-independent) following upstream edges,
collecting every reachable node into that root's component").  `conns.length`
rounds of expansion saturate, since an upstream path never needs to repeat a
node. -/
def membersList (conns : List (Int × Int)) (t : Int) : List Int :=
  reachSet conns (conns.length + 1) [t]

/-- The restriction of ReverseConnections to one component (§3:
"IndependentNetwork … the induced restriction of ReverseConnections to
exactly the nodes upstream-reachable from that tailwater").  Outside the
component the parent list is empty. -/
def netOf (conns : List (Int × Int)) (t : Int) (n : Int) : List Int :=
  if n ∈ membersList conns t then rconn conns n else []

/-- Modelled from the spec: §4.4's output, "IndependentNetworks — mapping
tailwater → restricted ReverseConnections covering exactly the reachable
set". -/
def independent_networks (conns : List (Int × Int)) :
    List (Int × List (Int × List Int)) :=
  (rootsOf conns).map
    (fun t => (t, (membersList conns t).map (fun n => (n, rconn conns n))))

/-- Modelled from the spec: the reach construction of §4.5 step 2
(`extend_chain`), computed from the downstream end of the reach.  A reach is
an unbranched chain: every node of the reach other than its start was
appended because it "has exactly one upstream parent (not a junction) and has
not yet been appended to a completed chain"; the start is a leaf, a junction,
or a self-loop outlet (§4.5 step 5).  The traversal reaches a chain at its
downstream end `e`, so the chain `[start, …, e]` is rebuilt by walking the
unique-parent links upward from `e`; this yields exactly
`extend_chain start` because the walk inverts the append steps one by one. -/
def chain_to (net : Int → List Int) (visited : List Int) :
    Nat → Int → List Int
  | 0, e => [e]
  | f + 1, e =>
    match net e with
    | [u] => if u = e ∨ e ∈ visited then [e] else chain_to net visited f u ++ [e]
    | _ => [e]

/-- Process a list of pending upstream branch ends with a given recursive
processor `g`, threading the visited set and concatenating the emitted
reaches; branch ends already visited are skipped ("whose full upstream-parent
set has not yet all been visited", §4.5 step 3), branches are taken in
upstream-list order. -/
def goL (g : List Int → Int → List Int × List (List Int)) :
    List Int → List Int → List Int × List (List Int)
  | v, [] => (v, [])
  | v, p :: ps =>
    if p ∈ v then goL g v ps
    else
      let r1 := g v p
      let r2 := goL g r1.1 ps
      (r2.1, r1.2 ++ r2.2)

/-- Modelled from the spec: `nhd_network.dfs_decomposition` (with
`split_at_junction` as the path function) is absent from the source tree.
§4.5, depth-first and leaf-first, with an explicit visited set: `go fuel v e`
processes the reach whose downstream end is `e`: it rebuilds that reach
(`chain_to`), then first recurses into every not-yet-visited upstream parent
branch of the reach's start (§4.5 step 3; a parent of the start is the
downstream end of its own reach), and emits the reach itself after all its
feeding branches (leaf reaches, having no parents, are emitted directly,
§4.5 step 4).  The fuel only forces termination; it is chosen large enough
never to run out. -/
def go (net : Int → List Int) : Nat → List Int → Int → List Int × List (List Int)
  | 0, v, _ => (v, [])
  | f + 1, v, e =>
    let ch := chain_to net v (f + 1) e
    let res := goL (go net f) (v ++ ch) (net ch.headI)
    (res.1, res.2 ++ [ch])

/-- Modelled from the spec: §4.5's output for a single tailwater `t` — the
ordered sequence of reaches of `t`'s component, produced by the leaf-first
depth-first decomposition entered at the tailwater (whose reach is emitted
last).  The fuel `conns.length + 2` exceeds the number of nodes of any
component, so it never runs out. -/
def reaches_for (conns : List (Int × Int)) (t : Int) : List (List Int) :=
  (go (netOf conns t) (conns.length + 2) [] t).2

/-- Modelled from the spec: §4.6 / the notebook's `reaches_bytw` — for every
tailwater root, the ordered reach decomposition of its component. -/
def reaches_bytw (conns : List (Int × Int)) : List (Int × List (List Int)) :=
  (rootsOf conns).map (fun t => (t, reaches_for conns t))

/-- Embedding of the notebook's `organize_independent_networks(connections)`:
returns the independent networks, the reaches by tailwater and the reversed
network (here as the per-node upstream-list function materialized on the node
universe). -/
def organize_independent_networks (conns : List (Int × Int)) :
    List (Int × List (Int × List Int)) × List (Int × List (List Int)) ×
      List (Int × List Int) :=
  (independent_networks conns, reaches_bytw conns,
    (nodesOf conns).map (fun n => (n, rconn conns n)))

/-- The notebook's pipeline on an in-memory table (cells 10–12):
`df = df.sort_index(); df = replace_downstreams(df, "to", 0);
connections = nhd_network.extract_connections(df, "to")`.  Sorting the index
does not change which rewrites happen; the concrete tables below are given
already sorted by id, as the pipeline produces them. -/
def pipeline_conns (tbl : List (Row α)) : List (Int × Int) :=
  extract_connections (replace_downstreams tbl 0)

/-- The concrete 7-row table of the spec's concrete scenario, with rows
(id, to) sorted by id as the notebook's `df.sort_index()` leaves them. -/
def tbl7 : List (Row Unit) :=
  [⟨20427622, 0, ()⟩, ⟨20427704, 20427622, ()⟩, ⟨20427706, 20427622, ()⟩,
   ⟨20429532, 20427706, ()⟩, ⟨20429540, 20427704, ()⟩,
   ⟨20429612, 20429532, ()⟩, ⟨20429616, 20429532, ()⟩]

/-- The Connections list extracted from the normalized 7-row table. -/
def conns7 : List (Int × Int) := pipeline_conns tbl7

/-- A single isolated self-outlet row, the boundary scenario of claim C8. -/
def tbl8 : List (Row Unit) := [⟨1, 0, ()⟩]

/-- `fwdIter conns k n` iterates the forward map `node → Connections[node]`
`k` times starting from `n`; `none` means the walk left the key set. -/
def fwdIter (conns : List (Int × Int)) : Nat → Int → Option Int
  | 0, n => some n
  | k + 1, n =>
    match conn conns n with
    | none => none
    | some m => fwdIter conns k m

/-- `x` forward-reaches `e` (equivalently, `e` is downstream of `x`, or `x`
is upstream of `e`): some number of forward steps from `x` lands on `e`. -/
def SubtreeP (conns : List (Int × Int)) (e x : Int) : Prop :=
  ∃ k, fwdIter conns k x = some e

/-- `a` strictly feeds `b`: at least one forward step from `a` lands on
`b`. -/
def fwdPlus (conns : List (Int × Int)) (a b : Int) : Prop :=
  ∃ k, 0 < k ∧ fwdIter conns k a = some b

/-- Claim C4 as stated, for a given table: the extracted Connections is
total (its keys are exactly the table's ids) and single-valued, every outlet
row (original downstream reference = sentinel 0) maps to itself, and forward
iteration from any known segment reaches a self-loop in finitely many
steps. -/
def claimC4 (tbl : List (Row α)) : Prop :=
  ((pipeline_conns tbl).map Prod.fst = tbl.map Row.id ∧
    ∀ a b c : Int, (a, b) ∈ pipeline_conns tbl → (a, c) ∈ pipeline_conns tbl →
      b = c) ∧
  (∀ r ∈ tbl, r.toRef = 0 → conn (pipeline_conns tbl) r.id = some r.id) ∧
  ∀ n ∈ tbl.map Row.id, ∃ k m, fwdIter (pipeline_conns tbl) k n = some m ∧
    conn (pipeline_conns tbl) m = some m

/-- Claim C7 as stated, for a given table: the components cover the full
node universe and no node belongs to two components. -/
def claimC7 (tbl : List (Row α)) : Prop :=
  (∀ x ∈ nodesOf (pipeline_conns tbl), ∃ t ∈ rootsOf (pipeline_conns tbl),
    x ∈ membersList (pipeline_conns tbl) t) ∧
  ∀ x ∈ nodesOf (pipeline_conns tbl), ∀ t1 ∈ rootsOf (pipeline_conns tbl),
    ∀ t2 ∈ rootsOf (pipeline_conns tbl),
    x ∈ membersList (pipeline_conns tbl) t1 →
    x ∈ membersList (pipeline_conns tbl) t2 → t1 = t2

/-- A height function witnessing acyclicity of the 7-row scenario's forward
graph (strictly decreasing along every non-self forward edge). -/
def rank7 : Int → Nat := fun n =>
  if n = -20427622 then 0
  else if n = 20427622 then 1
  else if n = 20427704 ∨ n = 20427706 then 2
  else if n = 20429532 then 3
  else 4

/-- The visited list `v` is disjoint from the set of nodes upstream of (or
equal to) `e`. -/
def VDisj (conns : List (Int × Int)) (v : List Int) (e : Int) : Prop :=
  ∀ x ∈ v, ¬ SubtreeP conns e x

/-- The set of nodes upstream of (or equal to) `e` has at most `m` elements
(witnessed by a duplicate-free list covering it). -/
def SubBound (conns : List (Int × Int)) (e : Int) (m : Nat) : Prop :=
  ∃ L : List Int, L.Nodup ∧ (∀ x, SubtreeP conns e x → x ∈ L) ∧ L.length ≤ m

/-- The topological-order property of an ordered list of reaches: no node of
a later reach strictly feeds (is upstream of) the first node of an earlier
reach. -/
def TopoOrdered (conns : List (Int × Int)) (rs : List (List Int)) : Prop :=
  ∀ (i j : Nat) (hi : i < rs.length) (hj : j < rs.length), j < i →
    ∀ a ∈ rs[i], ¬ fwdPlus conns a (rs[j]).headI

/-- The contract of one `go` call on the downstream chain end `e`: the
returned visited list is the input plus the emitted nodes, the emitted
reaches cover the nodes upstream of `e` exactly once, every reach is
nonempty, and the sequence is topologically ordered. -/
def GoOut (conns : List (Int × Int)) (v : List Int) (e : Int)
    (out : List Int × List (List Int)) : Prop :=
  (∀ x, x ∈ out.1 ↔ x ∈ v ∨ x ∈ out.2.flatten) ∧
  (∀ x, x ∈ out.2.flatten ↔ SubtreeP conns e x) ∧
  out.2.flatten.Nodup ∧
  (∀ B ∈ out.2, B ≠ []) ∧
  TopoOrdered conns out.2

/-- Claim C3 as stated, for a given table and sentinel: every row of the
normalized table has a downstream reference that is in-domain, the row's own
id, or negative. -/
def claimC3 (tbl : List (Row α)) (tc : Int) : Prop :=
  ∀ (i : Nat) (hi : i < tbl.length)
    (hi' : i < (replace_downstreams tbl tc).length),
    (replace_downstreams tbl tc)[i].toRef ∈ tbl.map Row.id ∨
    (replace_downstreams tbl tc)[i].toRef = (replace_downstreams tbl tc)[i].id ∨
    (replace_downstreams tbl tc)[i].toRef < 0

/-- Claim C1 as stated for the concrete 7-row scenario: the normalized
connection of 20427622 is -20427622, the tailwater id 20427622 is mapped to
itself, and the reaches keyed by the tailwater id 20427622 are the four
leaf/merge chains in some order followed by the final junction chain
[20427622]. -/
def claimC1 : Prop :=
  conn conns7 20427622 = some (-20427622) ∧
  conn conns7 20427622 = some 20427622 ∧
  ∃ l : List (List Int),
    (20427622, l ++ [[20427622]]) ∈ reaches_bytw conns7 ∧
    l.Perm [[20429540, 20427704], [20429612], [20429616], [20429532, 20427706]]

/-- Claim C8 as stated for the boundary table `tbl8`: exactly one independent
network, with a single-node member set, and exactly one reach of length
one. -/
def claimC8 : Prop :=
  (independent_networks (pipeline_conns tbl8)).length = 1 ∧
  (∀ p ∈ independent_networks (pipeline_conns tbl8), p.2.length = 1) ∧
  (reaches_bytw (pipeline_conns tbl8)).length = 1 ∧
  ∀ p ∈ reaches_bytw (pipeline_conns tbl8),
    p.2.length = 1 ∧ ∀ r ∈ p.2, r.length = 1

section BasicLemmas

variable {α : Type}

theorem replace_downstreams_length (tbl : List (Row α)) (tc : Int) :
    (replace_downstreams tbl tc).length = tbl.length := by
  simp [replace_downstreams]

theorem replace_downstreams_getElem (tbl : List (Row α)) (tc : Int) (i : Nat)
    (hi : i < tbl.length) (hi' : i < (replace_downstreams tbl tc).length) :
    (replace_downstreams tbl tc)[i] = rd_step (tbl.map Row.id) tc tbl[i] := by
  simp [replace_downstreams]

end BasicLemmas

/-- C2: for every table and every row whose original downstream reference
equals the sentinel, when the sentinel is not itself an index value, the
normalized downstream reference is the negation of the row's own id: the
self-loop rewrite happens first and the dangling-negation pass then negates
it. -/
theorem c2_sentinel_out_of_domain_negates_self (α : Type) (tbl : List (Row α))
    (tc : Int) (i : Nat) (hi : i < tbl.length)
    (hi' : i < (replace_downstreams tbl tc).length)
    (hto : tbl[i].toRef = tc) (hidx : tc ∉ tbl.map Row.id) :
    (replace_downstreams tbl tc)[i].toRef = -tbl[i].id := by
  rw [replace_downstreams_getElem tbl tc i hi hi']
  have hnotin : tbl[i].toRef ∉ tbl.map Row.id := by rw [hto]; exact hidx
  simp only [rd_step]
  rw [if_neg hnotin, if_pos hto]

/-- Witness for C2 at the 7-row table: the outlet row 20427622 (downstream
reference 0 = sentinel, 0 not an id) is normalized to -20427622. -/
theorem c2_sentinel_out_of_domain_negates_self_witness :
    (tbl7.get ⟨0, by decide⟩).toRef = 0 ∧ (0 : Int) ∉ tbl7.map Row.id ∧
    ((replace_downstreams tbl7 0).get ⟨0, by decide⟩).toRef =
      -(tbl7.get ⟨0, by decide⟩).id :=
  ⟨by decide, by decide,
    c2_sentinel_out_of_domain_negates_self Unit tbl7 0 0 (by decide) (by decide)
      (by decide) (by decide)⟩

/-- C3 is false as stated: a row whose original downstream reference is
negative and out-of-domain gets it negated to a positive value that is
neither in-domain, nor the row's own id, nor negative. -/
theorem c3_counterexample : ¬ claimC3 [(⟨5, -7, ()⟩ : Row Unit)] 0 := by
  intro h
  have h0 := h 0 (by decide) (by decide)
  revert h0
  decide

/-- C3 amended: for tables with positive ids and nonnegative downstream
references (sentinel 0), every normalized downstream reference is in-domain,
the row's own id, or negative. -/
theorem c3_amended_nonneg_refs (α : Type) (tbl : List (Row α))
    (hpos : ∀ r ∈ tbl, 0 < r.id) (hto : ∀ r ∈ tbl, 0 ≤ r.toRef) (i : Nat)
    (hi : i < tbl.length) (hi' : i < (replace_downstreams tbl 0).length) :
    (replace_downstreams tbl 0)[i].toRef ∈ tbl.map Row.id ∨
    (replace_downstreams tbl 0)[i].toRef = (replace_downstreams tbl 0)[i].id ∨
    (replace_downstreams tbl 0)[i].toRef < 0 := by
  have hmem : tbl[i] ∈ tbl := List.getElem_mem hi
  have hid : 0 < tbl[i].id := hpos _ hmem
  have hto' : 0 ≤ tbl[i].toRef := hto _ hmem
  rw [replace_downstreams_getElem tbl 0 i hi hi']
  simp only [rd_step]
  by_cases h0 : tbl[i].toRef = 0
  · have hnin : tbl[i].toRef ∉ tbl.map Row.id := by
      rw [h0]
      intro hc
      obtain ⟨r, hr, hr0⟩ := List.mem_map.mp hc
      exact absurd (hr0 ▸ hpos r hr) (by omega)
    rw [if_pos h0, if_neg hnin]
    right; right
    omega
  · rw [if_neg h0]
    by_cases hin : tbl[i].toRef ∈ tbl.map Row.id
    · rw [if_pos hin]
      exact Or.inl hin
    · rw [if_neg hin]
      right; right
      omega

/-- Witness for the amended C3 at the 7-row table (all ids positive, all
downstream references nonnegative), row 0. -/
theorem c3_amended_nonneg_refs_witness :
    (∀ r ∈ tbl7, 0 < r.id) ∧ (∀ r ∈ tbl7, 0 ≤ r.toRef) ∧
    (((replace_downstreams tbl7 0).get ⟨0, by decide⟩).toRef ∈ tbl7.map Row.id ∨
     ((replace_downstreams tbl7 0).get ⟨0, by decide⟩).toRef =
       ((replace_downstreams tbl7 0).get ⟨0, by decide⟩).id ∨
     ((replace_downstreams tbl7 0).get ⟨0, by decide⟩).toRef < 0) :=
  ⟨by decide, by decide,
    c3_amended_nonneg_refs Unit tbl7 (by decide) (by decide) 0 (by decide)
      (by decide)⟩

/-- C9: `replace_downstreams` preserves the row index (the id column) and
passes every auxiliary column through unchanged; only the downstream
reference column is rewritten.  (The embedding is a pure function, so the
input table itself is untouched by construction.) -/
theorem c9_frame (α : Type) (tbl : List (Row α)) (tc : Int) :
    (replace_downstreams tbl tc).map Row.id = tbl.map Row.id ∧
    ∀ (i : Nat) (hi : i < tbl.length)
      (hi' : i < (replace_downstreams tbl tc).length),
      (replace_downstreams tbl tc)[i].aux = tbl[i].aux := by
  constructor
  · simp [replace_downstreams, rd_step]
  · intro i hi hi'
    rw [replace_downstreams_getElem tbl tc i hi hi']
    simp [rd_step]

/-- Witness for C9 at the 7-row table, row 0. -/
theorem c9_frame_witness :
    (replace_downstreams tbl7 0).map Row.id = tbl7.map Row.id ∧
    ((replace_downstreams tbl7 0).get ⟨0, by decide⟩).aux =
      (tbl7.get ⟨0, by decide⟩).aux :=
  ⟨(c9_frame Unit tbl7 0).1,
    (c9_frame Unit tbl7 0).2 0 (by decide) (by decide)⟩

/-- C10: a row whose original downstream reference is negative and not an
index value has the reference replaced by its positive negation; in
particular, when that negation happens to be a known id, the result is an
apparently valid in-domain reference and no negative boundary marker
survives. -/
theorem c10_negative_dangling_flips_positive (α : Type) (tbl : List (Row α))
    (i : Nat) (hi : i < tbl.length)
    (hi' : i < (replace_downstreams tbl 0).length)
    (hneg : tbl[i].toRef < 0) (hout : tbl[i].toRef ∉ tbl.map Row.id) :
    (replace_downstreams tbl 0)[i].toRef = -tbl[i].toRef ∧
    0 < (replace_downstreams tbl 0)[i].toRef ∧
    (-tbl[i].toRef ∈ tbl.map Row.id →
      (replace_downstreams tbl 0)[i].toRef ∈ tbl.map Row.id ∧
      ¬ (replace_downstreams tbl 0)[i].toRef < 0) := by
  rw [replace_downstreams_getElem tbl 0 i hi hi']
  have h0 : tbl[i].toRef ≠ 0 := by omega
  simp only [rd_step]
  rw [if_neg hout, if_neg h0]
  exact ⟨rfl, by omega, fun hmem => ⟨hmem, by omega⟩⟩

/-- C1 is false as stated: it asserts both Connections[20427622] = -20427622
(which the code produces) and that the tailwater id 20427622 is mapped to
itself — contradictory, and indeed 20427622 is not mapped to itself; the
pipeline's tailwater key is the synthetic marker -20427622 and the reaches
are not keyed by 20427622. -/
theorem c1_counterexample : ¬ claimC1 := by
  rintro ⟨h1, h2, -⟩
  exact absurd (h1.symm.trans h2) (by decide)

/-- C1 amended: on the 7-row table the normalized connection of 20427622 is
-20427622, the unique tailwater is the synthetic marker -20427622 (not
20427622), and the reaches keyed by -20427622 are exactly
[[20429540, 20427704], [20429612], [20429616], [20429532, 20427706],
[20427622, -20427622]] — the final junction chain ends in the marker and is
last (this model's deterministic branch order realizes one of the allowed
permutations of the three feeding groups). -/
theorem c1_amended_concrete_scenario :
    conn conns7 20427622 = some (-20427622) ∧
    rootsOf conns7 = [-20427622] ∧
    reaches_bytw conns7 =
      [(-20427622,
        [[20429540, 20427704], [20429612], [20429616], [20429532, 20427706],
         [20427622, -20427622]])] := by
  refine ⟨by decide, by decide, by decide⟩

/-- C8 is false as stated: the single-row self-outlet table produces one
independent network, but its node set has two members (the segment and its
synthetic negated marker) and its single reach has length two. -/
theorem c8_counterexample : ¬ claimC8 := by
  intro h
  have h2 := h.2.1 (independent_networks (pipeline_conns tbl8)).headI
    (by decide)
  revert h2
  decide

/-- C8 amended: a table with exactly one row whose downstream reference is
the sentinel 0 (an isolated self-outlet, id nonzero) produces exactly one
independent network, whose node set is the pair (marker, segment) of size
two, and exactly one reach [id, -id] of length two: the negation pass turns
the sentinel row into a synthetic boundary marker that joins the
component. -/
theorem c8_amended_isolated_outlet (α : Type) (i : Int) (a : α) (hi : i ≠ 0) :
    independent_networks (pipeline_conns [(⟨i, 0, a⟩ : Row α)]) =
      [(-i, [(-i, [i]), (i, [])])] ∧
    reaches_bytw (pipeline_conns [(⟨i, 0, a⟩ : Row α)]) = [(-i, [[i, -i]])] := by
  have hpc : pipeline_conns [(⟨i, 0, a⟩ : Row α)] = [(i, -i)] := by
    simp [pipeline_conns, replace_downstreams, extract_connections, rd_step,
      Ne.symm hi]
  have h1 : i ≠ -i := by omega
  have h2 : nodesOf [(i, -i)] = [i, -i] := by
    simp [nodesOf, List.dedup_cons_of_not_mem, h1]
  have hb : ((-i : Int) == i) = false := beq_eq_false_iff_ne.mpr (Ne.symm h1)
  have hroots : rootsOf [(i, -i)] = [-i] := by
    rw [rootsOf, h2]
    simp [isTerminal, conn, List.filter, h1, Ne.symm h1, hb]
  have hmem : membersList [(i, -i)] (-i) = [-i, i] := by
    simp [membersList, reachSet, expandOnce, rconn, h1, Ne.symm h1,
      List.dedup_cons_of_not_mem, List.dedup_cons_of_mem]
  rw [hpc]
  constructor
  · rw [independent_networks, hroots]
    simp [hmem, rconn, h1, Ne.symm h1]
  · rw [reaches_bytw, hroots]
    simp only [List.map]
    rw [reaches_for]
    simp [go, goL, chain_to, netOf, hmem, rconn, h1, Ne.symm h1]

/-- Witness for the amended C8 at id 1. -/
theorem c8_amended_isolated_outlet_witness :
    (1 : Int) ≠ 0 ∧
    reaches_bytw (pipeline_conns [(⟨1, 0, ()⟩ : Row Unit)]) = [(-1, [[1, -1]])] :=
  ⟨by decide, (c8_amended_isolated_outlet Unit 1 () (by decide)).2⟩

/-- Witness for C10: in the table [(5, -7), (7, 5)] the reference -7 is
out-of-domain, gets flipped to 7, and 7 is a known id, so the row ends up
with an apparently valid in-domain reference. -/
theorem c10_negative_dangling_flips_positive_witness :
    (([⟨5, -7, ()⟩, ⟨7, 5, ()⟩] : List (Row Unit)).get ⟨0, by decide⟩).toRef < 0 ∧
    ((replace_downstreams ([⟨5, -7, ()⟩, ⟨7, 5, ()⟩] : List (Row Unit)) 0).get
        ⟨0, by decide⟩).toRef =
      -(([⟨5, -7, ()⟩, ⟨7, 5, ()⟩] : List (Row Unit)).get ⟨0, by decide⟩).toRef :=
  ⟨by decide,
    (c10_negative_dangling_flips_positive Unit [⟨5, -7, ()⟩, ⟨7, 5, ()⟩] 0
      (by decide) (by decide) (by decide) (by decide)).1⟩

theorem conn_mem {conns : List (Int × Int)} {a b : Int}
    (h : conn conns a = some b) : (a, b) ∈ conns := by
  induction conns with
  | nil => simp [conn] at h
  | cons x rest ih =>
    obtain ⟨p, q⟩ := x
    simp only [conn] at h
    split_ifs at h with hc
    · obtain rfl := Option.some.inj h
      subst hc
      exact List.mem_cons_self _ _
    · exact List.mem_cons_of_mem _ (ih h)

theorem conn_eq_of_mem {conns : List (Int × Int)}
    (hnd : (conns.map Prod.fst).Nodup) {a b : Int} (h : (a, b) ∈ conns) :
    conn conns a = some b := by
  induction conns with
  | nil => simp at h
  | cons x rest ih =>
    obtain ⟨p, q⟩ := x
    simp only [List.map_cons, List.nodup_cons] at hnd
    rcases List.mem_cons.mp h with h1 | h1
    · cases h1
      simp [conn]
    · have hne : a ≠ p := by
        rintro rfl
        exact hnd.1 (List.mem_map_of_mem Prod.fst h1)
      simp only [conn, if_neg hne]
      exact ih hnd.2 h1

theorem conn_eq_none {conns : List (Int × Int)} {a : Int} :
    conn conns a = none ↔ a ∉ conns.map Prod.fst := by
  induction conns with
  | nil => simp [conn]
  | cons x rest ih =>
    obtain ⟨p, q⟩ := x
    simp only [conn, List.map_cons, List.mem_cons]
    split_ifs with hc
    · simp [hc]
    · simp [hc, ih]

theorem assoc_single_valued {conns : List (Int × Int)}
    (hnd : (conns.map Prod.fst).Nodup) {a b c : Int} (h1 : (a, b) ∈ conns)
    (h2 : (a, c) ∈ conns) : b = c :=
  Option.some.inj ((conn_eq_of_mem hnd h1).symm.trans (conn_eq_of_mem hnd h2))

theorem mem_rconn {conns : List (Int × Int)} {n p : Int} :
    p ∈ rconn conns n ↔ (p, n) ∈ conns := by
  induction conns with
  | nil => simp [rconn]
  | cons x rest ih =>
    obtain ⟨a, b⟩ := x
    simp only [rconn]
    split_ifs with hb
    · subst hb
      simp [List.mem_cons, ih, Prod.mk.injEq]
    · rw [ih]
      constructor
      · exact fun h => List.mem_cons_of_mem _ h
      · intro h
        rcases List.mem_cons.mp h with h1 | h1
        · exact absurd (congrArg Prod.snd h1) (fun hh => hb hh.symm)
        · exact h1

theorem fwdIter_one (conns : List (Int × Int)) (n : Int) :
    fwdIter conns 1 n = conn conns n := by
  cases hc : conn conns n <;> simp [fwdIter, hc]

theorem fwdIter_add (conns : List (Int × Int)) (i j : Nat) (n : Int) :
    fwdIter conns (i + j) n = (fwdIter conns i n).bind (fwdIter conns j) := by
  induction i generalizing n with
  | zero => simp [fwdIter]
  | succ i ih =>
    have hrw : i + 1 + j = (i + j) + 1 := by omega
    rw [hrw]
    cases hc : conn conns n with
    | none => simp [fwdIter, hc]
    | some m => simp [fwdIter, hc, ih]

theorem fwdIter_succ_right (conns : List (Int × Int)) (k : Nat) (x y : Int) :
    fwdIter conns (k + 1) x = some y ↔
      ∃ w, fwdIter conns k x = some w ∧ conn conns w = some y := by
  rw [fwdIter_add conns k 1]
  cases h : fwdIter conns k x with
  | none => simp
  | some w => simp [fwdIter_one]

theorem fwdIter_isSome_prefix {conns : List (Int × Int)} {k : Nat} {x t : Int}
    (h : fwdIter conns k x = some t) {i : Nat} (hik : i ≤ k) :
    ∃ z, fwdIter conns i x = some z := by
  rcases Nat.exists_eq_add_of_le hik with ⟨j, rfl⟩
  rw [fwdIter_add] at h
  cases hz : fwdIter conns i x with
  | none => rw [hz] at h; simp at h
  | some z => exact ⟨z, rfl⟩

theorem fwdIter_self_stable {conns : List (Int × Int)} {t : Int}
    (hc : conn conns t = some t) (k : Nat) : fwdIter conns k t = some t := by
  induction k with
  | zero => rfl
  | succ k ih => simp [fwdIter, hc, ih]

theorem fwdIter_none_stable {conns : List (Int × Int)} {t : Int}
    (hc : conn conns t = none) (k : Nat) : fwdIter conns (k + 1) t = none := by
  simp [fwdIter, hc]

theorem chase_terminates (conns : List (Int × Int)) (rank : Int → Nat)
    (hrank : ∀ p ∈ conns, p.1 ≠ p.2 → rank p.2 < rank p.1) (n : Int) :
    ∃ k m, fwdIter conns k n = some m ∧
      (conn conns m = none ∨ conn conns m = some m) := by
  suffices H : ∀ (R : Nat) (n : Int), rank n ≤ R →
      ∃ k m, fwdIter conns k n = some m ∧
        (conn conns m = none ∨ conn conns m = some m) by
    exact H (rank n) n le_rfl
  intro R
  induction R with
  | zero =>
    intro n hR
    cases hc : conn conns n with
    | none => exact ⟨0, n, rfl, Or.inl hc⟩
    | some m =>
      by_cases hm : m = n
      · exact ⟨0, n, rfl, Or.inr (hm ▸ hc)⟩
      · have hlt : rank m < rank n := hrank (n, m) (conn_mem hc) (Ne.symm hm)
        omega
  | succ R ih =>
    intro n hR
    cases hc : conn conns n with
    | none => exact ⟨0, n, rfl, Or.inl hc⟩
    | some m =>
      by_cases hm : m = n
      · exact ⟨0, n, rfl, Or.inr (hm ▸ hc)⟩
      · have hlt : rank m < rank n := hrank (n, m) (conn_mem hc) (Ne.symm hm)
        obtain ⟨k, mm, h1, h2⟩ := ih m (by omega)
        exact ⟨k + 1, mm, by simp [fwdIter, hc, h1], h2⟩

theorem mem_expandOnce {conns : List (Int × Int)} {s : List Int} {x : Int} :
    x ∈ expandOnce conns s ↔ x ∈ s ∨ ∃ y ∈ s, x ∈ rconn conns y := by
  simp [expandOnce, List.mem_dedup, List.mem_append, List.mem_flatMap]

theorem subset_expandOnce (conns : List (Int × Int)) (s : List Int) :
    s ⊆ expandOnce conns s := fun _ hx => mem_expandOnce.mpr (Or.inl hx)

theorem mem_reachSet_of_mem {conns : List (Int × Int)} {s : List Int} {x : Int}
    (f : Nat) (h : x ∈ s) : x ∈ reachSet conns f s := by
  induction f generalizing s with
  | zero => exact h
  | succ f ih => exact ih (subset_expandOnce conns s h)

theorem reachSet_sound {conns : List (Int × Int)} {t : Int}
    (hnd : (conns.map Prod.fst).Nodup) :
    ∀ (f : Nat) (s : List Int), (∀ y ∈ s, SubtreeP conns t y) →
      ∀ x ∈ reachSet conns f s, SubtreeP conns t x := by
  intro f
  induction f with
  | zero => exact fun s hs x hx => hs x hx
  | succ f ih =>
    intro s hs x hx
    refine ih _ ?_ x hx
    intro y hy
    rcases mem_expandOnce.mp hy with h1 | ⟨z, hz, hyz⟩
    · exact hs y h1
    · have hcz : conn conns y = some z := conn_eq_of_mem hnd (mem_rconn.mp hyz)
      obtain ⟨k, hk⟩ := hs z hz
      exact ⟨k + 1, by simp [fwdIter, hcz, hk]⟩

theorem reachSet_complete {conns : List (Int × Int)} :
    ∀ (k f : Nat) (s : List Int) (x y : Int), fwdIter conns k x = some y →
      y ∈ s → k ≤ f → x ∈ reachSet conns f s := by
  intro k
  induction k with
  | zero =>
    intro f s x y hit hy _
    obtain rfl : x = y := Option.some.inj hit
    exact mem_reachSet_of_mem f hy
  | succ k ih =>
    intro f s x y hit hy hkf
    obtain ⟨w, hw, hcw⟩ := (fwdIter_succ_right conns k x y).mp hit
    cases f with
    | zero => omega
    | succ f =>
      show x ∈ reachSet conns f (expandOnce conns s)
      refine ih f (expandOnce conns s) x w hw ?_ (by omega)
      exact mem_expandOnce.mpr (Or.inr ⟨y, hy, mem_rconn.mpr (conn_mem hcw)⟩)

theorem fwdIter_min_le_length {conns : List (Int × Int)} {x t : Int} {k : Nat}
    (h : fwdIter conns k x = some t) :
    ∃ q ≤ conns.length, fwdIter conns q x = some t := by
  classical
  have hex : ∃ j, fwdIter conns j x = some t := ⟨k, h⟩
  set k0 := Nat.find hex with hk0def
  have hk0 : fwdIter conns k0 x = some t := Nat.find_spec hex
  have hmin : ∀ j < k0, fwdIter conns j x ≠ some t := fun j hj => Nat.find_min hex hj
  suffices hle : k0 ≤ conns.length from ⟨k0, hle, hk0⟩
  set val : Nat → Int := fun i => (fwdIter conns i x).getD 0 with hval
  have hvs : ∀ i, i ≤ k0 → fwdIter conns i x = some (val i) := by
    intro i hi
    obtain ⟨z, hz⟩ := fwdIter_isSome_prefix hk0 hi
    simp [hval, hz]
  have hdist : ∀ i j, i < j → j ≤ k0 → val i ≠ val j := by
    intro i j hij hj heq
    have h1 : fwdIter conns j x = some (val j) := hvs j hj
    have h2 : fwdIter conns i x = some (val i) := hvs i (by omega)
    have h5 := fwdIter_add conns j (k0 - j) x
    rw [show j + (k0 - j) = k0 by omega, hk0, h1] at h5
    simp only [Option.some_bind] at h5
    have h6 : fwdIter conns (k0 - j) (val i) = some t := by rw [heq]; exact h5.symm
    have h7 := fwdIter_add conns i (k0 - j) x
    rw [h2] at h7
    simp only [Option.some_bind] at h7
    rw [h6] at h7
    exact hmin (i + (k0 - j)) (by omega) h7
  have hkeys : ∀ i, i < k0 → val i ∈ conns.map Prod.fst := by
    intro i hi
    have h1 : fwdIter conns (i + 1) x = some (val (i + 1)) := hvs (i + 1) (by omega)
    obtain ⟨w, hw, hcw⟩ := (fwdIter_succ_right conns i x _).mp h1
    have hwv : some (val i) = some w := (hvs i (by omega)).symm.trans hw
    obtain rfl : val i = w := Option.some.inj hwv
    exact List.mem_map_of_mem Prod.fst (conn_mem hcw)
  have hinj : Set.InjOn val (Finset.range k0) := by
    intro i hi j hj hijeq
    simp only [Finset.coe_range, Set.mem_Iio] at hi hj
    rcases lt_trichotomy i j with hlt | heq | hgt
    · exact absurd hijeq (hdist i j hlt (by omega))
    · exact heq
    · exact absurd hijeq.symm (hdist j i hgt (by omega))
  calc k0 = (Finset.range k0).card := (Finset.card_range k0).symm
    _ ≤ ((conns.map Prod.fst).toFinset).card := by
        refine Finset.card_le_card_of_injOn val ?_ hinj
        intro i hi
        exact List.mem_toFinset.mpr (hkeys i (Finset.mem_range.mp hi))
    _ ≤ (conns.map Prod.fst).length := List.toFinset_card_le _
    _ = conns.length := by simp

theorem mem_membersList_iff {conns : List (Int × Int)}
    (hnd : (conns.map Prod.fst).Nodup) {t x : Int} :
    x ∈ membersList conns t ↔ SubtreeP conns t x := by
  constructor
  · intro hx
    refine reachSet_sound hnd _ _ ?_ x hx
    intro y hy
    rcases List.mem_singleton.mp hy with rfl
    exact ⟨0, rfl⟩
  · rintro ⟨k, hk⟩
    obtain ⟨q, hq, hqit⟩ := fwdIter_min_le_length hk
    exact reachSet_complete q (conns.length + 1) [t] x t hqit
      (List.mem_singleton.mpr rfl) (by omega)

theorem mem_rootsOf_iff {conns : List (Int × Int)} {t : Int} :
    t ∈ rootsOf conns ↔
      t ∈ nodesOf conns ∧ (conn conns t = none ∨ conn conns t = some t) := by
  rw [rootsOf, List.mem_filter]
  refine and_congr_right fun _ => ?_
  cases hc : conn conns t with
  | none => simp [isTerminal, hc]
  | some d => simp [isTerminal, hc, beq_iff_eq]

theorem snd_mem_nodesOf {conns : List (Int × Int)} {w m : Int}
    (h : (w, m) ∈ conns) : m ∈ nodesOf conns := by
  rw [nodesOf, List.mem_dedup, List.mem_append]
  exact Or.inr (List.mem_map.mpr ⟨(w, m), h, rfl⟩)

theorem fst_mem_nodesOf {conns : List (Int × Int)} {w m : Int}
    (h : (w, m) ∈ conns) : w ∈ nodesOf conns := by
  rw [nodesOf, List.mem_dedup, List.mem_append]
  exact Or.inl (List.mem_map.mpr ⟨(w, m), h, rfl⟩)

theorem pipeline_keys (α : Type) (tbl : List (Row α)) :
    (pipeline_conns tbl).map Prod.fst = tbl.map Row.id := by
  simp [pipeline_conns, extract_connections, replace_downstreams, rd_step,
    Function.comp]

/-- C4 is false as stated: in the single-outlet table [(1, 0)] the outlet row
does not map to itself (it maps to -1, the synthetic boundary marker). -/
theorem c4_counterexample : ¬ claimC4 ([⟨1, 0, ()⟩] : List (Row Unit)) := by
  rintro ⟨-, h3, -⟩
  have h := h3 ⟨1, 0, ()⟩ (by decide) rfl
  revert h
  decide

/-- C4 amended: the extracted Connections is total on the table's ids and
single-valued; an outlet row (original reference = sentinel 0) maps to itself
when the sentinel is a known id and otherwise to the negation of its own id;
and, provided the forward graph is acyclic apart from self-loops (witnessed
by a rank function decreasing along every non-self edge), forward iteration
from any node reaches, in finitely many steps, a terminal node — a self-loop
or a node with no entry (a boundary marker). -/
theorem c4_amended_connections (α : Type) (tbl : List (Row α))
    (hnd : (tbl.map Row.id).Nodup) (rank : Int → Nat)
    (hrank : ∀ p ∈ pipeline_conns tbl, p.1 ≠ p.2 → rank p.2 < rank p.1) :
    ((pipeline_conns tbl).map Prod.fst = tbl.map Row.id ∧
      ∀ a b c : Int, (a, b) ∈ pipeline_conns tbl →
        (a, c) ∈ pipeline_conns tbl → b = c) ∧
    (∀ r ∈ tbl, r.toRef = 0 →
      conn (pipeline_conns tbl) r.id =
        some (if (0 : Int) ∈ tbl.map Row.id then r.id else -r.id)) ∧
    ∀ n : Int, ∃ k m, fwdIter (pipeline_conns tbl) k n = some m ∧
      (conn (pipeline_conns tbl) m = none ∨
        conn (pipeline_conns tbl) m = some m) := by
  have hkeys := pipeline_keys α tbl
  have hndk : ((pipeline_conns tbl).map Prod.fst).Nodup := by
    rw [hkeys]; exact hnd
  refine ⟨⟨hkeys, fun a b c h1 h2 => assoc_single_valued hndk h1 h2⟩, ?_, ?_⟩
  · intro r hr hto
    have hrow : rd_step (tbl.map Row.id) 0 r ∈ replace_downstreams tbl 0 :=
      List.mem_map_of_mem _ hr
    have hpair : (r.id, (rd_step (tbl.map Row.id) 0 r).toRef) ∈
        pipeline_conns tbl := by
      refine List.mem_map.mpr ⟨rd_step (tbl.map Row.id) 0 r, hrow, ?_⟩
      simp [rd_step]
    rw [conn_eq_of_mem hndk hpair]
    congr 1
    simp [rd_step, hto]
  · exact chase_terminates _ rank hrank

/-- Witness for the amended C4 at the 7-row table with the height function
`rank7`. -/
theorem c4_amended_connections_witness :
    (tbl7.map Row.id).Nodup ∧
    (∀ p ∈ pipeline_conns tbl7, p.1 ≠ p.2 → rank7 p.2 < rank7 p.1) ∧
    ∀ r ∈ tbl7, r.toRef = 0 →
      conn (pipeline_conns tbl7) r.id =
        some (if (0 : Int) ∈ tbl7.map Row.id then r.id else -r.id) :=
  ⟨by decide, by decide,
    (c4_amended_connections Unit tbl7 (by decide) rank7 (by decide)).2.1⟩

/-- C7 is false as stated: the two-row cyclic table [(1, 2), (2, 1)] has a
nonempty node universe but no tailwater root at all, so no component covers
node 1. -/
theorem c7_counterexample :
    ¬ claimC7 ([⟨1, 2, ()⟩, ⟨2, 1, ()⟩] : List (Row Unit)) := by
  rintro ⟨h1, -⟩
  obtain ⟨t, ht, -⟩ := h1 1 (by decide)
  have hroots : rootsOf (pipeline_conns ([⟨1, 2, ()⟩, ⟨2, 1, ()⟩] :
      List (Row Unit))) = [] := by decide
  rw [hroots] at ht
  exact absurd ht (List.not_mem_nil t)

/-- C7 amended: provided the forward graph is acyclic apart from self-loops
(witnessed by a rank function decreasing along every non-self edge), the
components cover the full node universe — every universe node belongs to the
component of some tailwater root — and no node belongs to the components of
two distinct roots. -/
theorem c7_amended_partition (α : Type) (tbl : List (Row α))
    (hnd : (tbl.map Row.id).Nodup) (rank : Int → Nat)
    (hrank : ∀ p ∈ pipeline_conns tbl, p.1 ≠ p.2 → rank p.2 < rank p.1) :
    (∀ x ∈ nodesOf (pipeline_conns tbl), ∃ t ∈ rootsOf (pipeline_conns tbl),
      x ∈ membersList (pipeline_conns tbl) t) ∧
    ∀ (x t1 t2 : Int), t1 ∈ rootsOf (pipeline_conns tbl) →
      t2 ∈ rootsOf (pipeline_conns tbl) →
      x ∈ membersList (pipeline_conns tbl) t1 →
      x ∈ membersList (pipeline_conns tbl) t2 → t1 = t2 := by
  have hndk : ((pipeline_conns tbl).map Prod.fst).Nodup := by
    rw [pipeline_keys α tbl]; exact hnd
  constructor
  · intro x hx
    obtain ⟨k, m, hit, hterm⟩ := chase_terminates (pipeline_conns tbl) rank hrank x
    refine ⟨m, mem_rootsOf_iff.mpr ⟨?_, hterm⟩,
      (mem_membersList_iff hndk).mpr ⟨k, hit⟩⟩
    cases k with
    | zero =>
      obtain rfl : x = m := Option.some.inj hit
      exact hx
    | succ k =>
      obtain ⟨w, _, hcw⟩ := (fwdIter_succ_right _ k x m).mp hit
      exact snd_mem_nodesOf (conn_mem hcw)
  · intro x t1 t2 ht1 ht2 hm1 hm2
    obtain ⟨k1, hk1⟩ := (mem_membersList_iff hndk).mp hm1
    obtain ⟨k2, hk2⟩ := (mem_membersList_iff hndk).mp hm2
    have step : ∀ {ta tb : Int} {ka kb : Nat}, ta ∈ rootsOf (pipeline_conns tbl) →
        fwdIter (pipeline_conns tbl) ka x = some ta →
        fwdIter (pipeline_conns tbl) kb x = some tb → ka ≤ kb → ta = tb := by
      intro ta tb ka kb hta hka hkb hle
      have hadd := fwdIter_add (pipeline_conns tbl) ka (kb - ka) x
      rw [show ka + (kb - ka) = kb by omega, hkb, hka] at hadd
      simp only [Option.some_bind] at hadd
      rcases (mem_rootsOf_iff.mp hta).2 with hc | hc
      · cases hkk : kb - ka with
        | zero =>
          rw [hkk] at hadd
          exact (Option.some.inj hadd.symm)
        | succ j =>
          rw [hkk, fwdIter_none_stable hc] at hadd
          exact absurd hadd (by simp)
      · rw [fwdIter_self_stable hc] at hadd
        exact (Option.some.inj hadd).symm
    rcases le_total k1 k2 with hle | hle
    · exact step ht1 hk1 hk2 hle
    · exact (step ht2 hk2 hk1 hle).symm

/-- Witness for the amended C7 at the 7-row table with the height function
`rank7`. -/
theorem c7_amended_partition_witness :
    (tbl7.map Row.id).Nodup ∧
    (∀ p ∈ pipeline_conns tbl7, p.1 ≠ p.2 → rank7 p.2 < rank7 p.1) ∧
    ∀ x ∈ nodesOf (pipeline_conns tbl7), ∃ t ∈ rootsOf (pipeline_conns tbl7),
      x ∈ membersList (pipeline_conns tbl7) t :=
  ⟨by decide, by decide,
    (c7_amended_partition Unit tbl7 (by decide) rank7 (by decide)).1⟩

theorem SubtreeP_refl (conns : List (Int × Int)) (e : Int) :
    SubtreeP conns e e := ⟨0, rfl⟩

theorem SubtreeP_trans {conns : List (Int × Int)} {x m e : Int}
    (h1 : SubtreeP conns m x) (h2 : SubtreeP conns e m) :
    SubtreeP conns e x := by
  obtain ⟨i, hi⟩ := h1
  obtain ⟨j, hj⟩ := h2
  refine ⟨i + j, ?_⟩
  rw [fwdIter_add, hi]
  simpa using hj

theorem SubtreeP_step {conns : List (Int × Int)} {x m e : Int}
    (hc : conn conns x = some m) (h : SubtreeP conns e m) :
    SubtreeP conns e x := by
  obtain ⟨k, hk⟩ := h
  exact ⟨k + 1, by simp [fwdIter, hc, hk]⟩

theorem SubtreeP_one {conns : List (Int × Int)} {x m : Int}
    (hc : conn conns x = some m) : SubtreeP conns m x :=
  ⟨1, by rw [fwdIter_one]; exact hc⟩

theorem selfloop_eq_t {conns : List (Int × Int)} {t s : Int}
    (hs : SubtreeP conns t s) (hc : conn conns s = some s) : s = t := by
  obtain ⟨k, hk⟩ := hs
  rw [fwdIter_self_stable hc] at hk
  exact Option.some.inj hk

theorem fwdPlus_self_collapse {conns : List (Int × Int)} {t x : Int}
    (hterm : conn conns t = none ∨ conn conns t = some t)
    (hx : SubtreeP conns t x) (hcyc : fwdPlus conns x x) :
    x = t ∧ conn conns t = some t := by
  obtain ⟨c, hc0, hc⟩ := hcyc
  obtain ⟨d, hd⟩ := hx
  have hper : ∀ N : Nat, fwdIter conns (N * c) x = some x := by
    intro N
    induction N with
    | zero => rw [Nat.zero_mul]; rfl
    | succ N ih =>
      have hrw : (N + 1) * c = N * c + c := by ring
      rw [hrw, fwdIter_add, ih]
      simpa using hc
  have hdc : d < (d + 1) * c := by
    have h1 : d + 1 ≤ (d + 1) * c := Nat.le_mul_of_pos_right _ hc0
    omega
  rcases hterm with hnone | hself
  · exfalso
    have hbig : fwdIter conns ((d + 1) * c) x = some x := hper (d + 1)
    have h5 := fwdIter_add conns d ((d + 1) * c - d) x
    rw [show d + ((d + 1) * c - d) = (d + 1) * c by omega, hd] at h5
    simp only [Option.some_bind] at h5
    obtain ⟨j, hj⟩ : ∃ j, (d + 1) * c - d = j + 1 := ⟨(d + 1) * c - d - 1, by omega⟩
    rw [hj] at h5
    rw [fwdIter_none_stable hnone] at h5
    rw [hbig] at h5
    exact absurd h5 (by simp)
  · have h5 := fwdIter_add conns d ((d + 1) * c - d) x
    rw [show d + ((d + 1) * c - d) = (d + 1) * c by omega, hd] at h5
    simp only [Option.some_bind] at h5
    rw [fwdIter_self_stable hself, hper (d + 1)] at h5
    exact ⟨Option.some.inj h5, hself⟩

theorem SubtreeP_antisymm {conns : List (Int × Int)} {t p q : Int}
    (hterm : conn conns t = none ∨ conn conns t = some t)
    (hp : SubtreeP conns t p) (h1 : SubtreeP conns q p)
    (h2 : SubtreeP conns p q) : p = q := by
  obtain ⟨i, hi⟩ := h1
  obtain ⟨j, hj⟩ := h2
  rcases Nat.eq_zero_or_pos (i + j) with h0 | hpos
  · have hi0 : i = 0 := by omega
    rw [hi0] at hi
    exact Option.some.inj hi
  · have hcyc : fwdPlus conns p p := by
      refine ⟨i + j, hpos, ?_⟩
      rw [fwdIter_add, hi]
      simpa using hj
    obtain ⟨rfl, hself⟩ := fwdPlus_self_collapse hterm hp hcyc
    rw [fwdIter_self_stable hself] at hi
    exact Option.some.inj hi

theorem SubtreeP_linear {conns : List (Int × Int)} {x a b : Int}
    (h1 : SubtreeP conns a x) (h2 : SubtreeP conns b x) :
    SubtreeP conns b a ∨ SubtreeP conns a b := by
  obtain ⟨i, hi⟩ := h1
  obtain ⟨j, hj⟩ := h2
  rcases le_total i j with h | h
  · left
    have h5 := fwdIter_add conns i (j - i) x
    rw [show i + (j - i) = j by omega, hj, hi] at h5
    simp only [Option.some_bind] at h5
    exact ⟨j - i, h5.symm⟩
  · right
    have h5 := fwdIter_add conns j (i - j) x
    rw [show j + (i - j) = i by omega, hi, hj] at h5
    simp only [Option.some_bind] at h5
    exact ⟨i - j, h5.symm⟩

theorem sibling_disjoint {conns : List (Int × Int)} {t s p q : Int}
    (hterm : conn conns t = none ∨ conn conns t = some t)
    (hs : SubtreeP conns t s) (hp : conn conns p = some s)
    (hq : conn conns q = some s) (hpq : p ≠ q) (hpt : p ≠ t) (hqt : q ≠ t)
    (x : Int) (h1 : SubtreeP conns p x) (h2 : SubtreeP conns q x) : False := by
  rcases SubtreeP_linear h1 h2 with hqp | hpq2
  · obtain ⟨i, hi⟩ := hqp
    cases i with
    | zero => exact hpq (Option.some.inj hi)
    | succ j =>
      have hstep : fwdIter conns j s = some q := by
        simpa [fwdIter, hp] using hi
      have hcyc : fwdPlus conns s s := by
        refine ⟨j + 1, by omega, ?_⟩
        rw [fwdIter_add conns j 1, hstep]
        simp [fwdIter_one, hq]
      obtain ⟨rfl, hself⟩ := fwdPlus_self_collapse hterm hs hcyc
      rw [fwdIter_self_stable hself] at hstep
      exact hqt (Option.some.inj hstep).symm
  · obtain ⟨i, hi⟩ := hpq2
    cases i with
    | zero => exact hpq (Option.some.inj hi).symm
    | succ j =>
      have hstep : fwdIter conns j s = some p := by
        simpa [fwdIter, hq] using hi
      have hcyc : fwdPlus conns s s := by
        refine ⟨j + 1, by omega, ?_⟩
        rw [fwdIter_add conns j 1, hstep]
        simp [fwdIter_one, hp]
      obtain ⟨rfl, hself⟩ := fwdPlus_self_collapse hterm hs hcyc
      rw [fwdIter_self_stable hself] at hstep
      exact hpt (Option.some.inj hstep).symm

theorem rconn_sublist (conns : List (Int × Int)) (n : Int) :
    List.Sublist (rconn conns n) (conns.map Prod.fst) := by
  induction conns with
  | nil => simp [rconn]
  | cons x rest ih =>
    obtain ⟨a, b⟩ := x
    simp only [rconn, List.map_cons]
    split_ifs with hb
    · exact ih.cons₂ a
    · exact ih.cons a

theorem net_eq_rconn {conns : List (Int × Int)}
    (hnd : (conns.map Prod.fst).Nodup) {t n : Int} (hn : SubtreeP conns t n) :
    netOf conns t n = rconn conns n := by
  rw [netOf, if_pos ((mem_membersList_iff hnd).mpr hn)]

theorem mem_net_iff {conns : List (Int × Int)}
    (hnd : (conns.map Prod.fst).Nodup) {t n p : Int} (hn : SubtreeP conns t n) :
    p ∈ netOf conns t n ↔ conn conns p = some n := by
  rw [net_eq_rconn hnd hn, mem_rconn]
  exact ⟨fun h => conn_eq_of_mem hnd h, fun h => conn_mem h⟩

theorem net_nodup {conns : List (Int × Int)}
    (hnd : (conns.map Prod.fst).Nodup) (t n : Int) :
    (netOf conns t n).Nodup := by
  rw [netOf]
  split_ifs
  · exact (rconn_sublist conns n).nodup hnd
  · exact List.nodup_nil

theorem conn_t_forces {conns : List (Int × Int)} {t n : Int}
    (hterm : conn conns t = none ∨ conn conns t = some t)
    (hc : conn conns t = some n) : n = t := by
  rcases hterm with h | h
  · rw [h] at hc; exact absurd hc (by simp)
  · rw [h] at hc; exact (Option.some.inj hc).symm

theorem headI_mem_of_ne_nil {l : List Int} (h : l ≠ []) : l.headI ∈ l := by
  cases l with
  | nil => exact absurd rfl h
  | cons a l => exact List.mem_cons_self a l

theorem headI_append_of_ne_nil {l1 l2 : List Int} (h : l1 ≠ []) :
    (l1 ++ l2).headI = l1.headI := by
  cases l1 with
  | nil => exact absurd rfl h
  | cons a l => rfl

theorem two_mem_le_length {L : List Int} {a b : Int} (hab : a ≠ b)
    (ha : a ∈ L) (hb : b ∈ L) : 2 ≤ L.length := by
  calc 2 = ({a, b} : Finset Int).card := by
        rw [Finset.card_insert_of_not_mem (by simpa using hab),
          Finset.card_singleton]
    _ ≤ L.toFinset.card := by
        refine Finset.card_le_card ?_
        intro x hx
        rcases Finset.mem_insert.mp hx with rfl | hx2
        · exact List.mem_toFinset.mpr ha
        · rcases Finset.mem_singleton.mp hx2 with rfl
          exact List.mem_toFinset.mpr hb
    _ ≤ L.length := List.toFinset_card_le L

theorem chain_singleton_spec {conns : List (Int × Int)} {t e : Int}
    (hd : ∀ u, netOf conns t e = [u] → u = e) :
    ([e] : List Int).getLast? = some e ∧
    (∀ x ∈ ([e] : List Int), SubtreeP conns e x) ∧
    ([e] : List Int).Nodup ∧
    List.Chain' (fun a b => netOf conns t b = [a]) [e] ∧
    (∀ u, netOf conns t (([e] : List Int)).headI = [u] →
      u = (([e] : List Int)).headI) ∧
    (∀ x ∈ ([e] : List Int), SubtreeP conns x (([e] : List Int)).headI) := by
  refine ⟨rfl, ?_, by simp, List.chain'_singleton e, ?_, ?_⟩
  · intro x hx
    rcases List.mem_singleton.mp hx with rfl
    exact SubtreeP_refl conns x
  · intro u hu
    exact hd u hu
  · intro x hx
    rcases List.mem_singleton.mp hx with rfl
    exact SubtreeP_refl conns x

theorem chain_to_spec {conns : List (Int × Int)}
    (hnd : (conns.map Prod.fst).Nodup) {t : Int}
    (hterm : conn conns t = none ∨ conn conns t = some t) :
    ∀ (f : Nat) (v : List Int) (e : Int), SubtreeP conns t e →
      VDisj conns v e → SubBound conns e (f + 1) →
      (chain_to (netOf conns t) v f e).getLast? = some e ∧
      (∀ x ∈ chain_to (netOf conns t) v f e, SubtreeP conns e x) ∧
      (chain_to (netOf conns t) v f e).Nodup ∧
      List.Chain' (fun a b => netOf conns t b = [a])
        (chain_to (netOf conns t) v f e) ∧
      (∀ u, netOf conns t (chain_to (netOf conns t) v f e).headI = [u] →
        u = (chain_to (netOf conns t) v f e).headI) ∧
      (∀ x ∈ chain_to (netOf conns t) v f e,
        SubtreeP conns x (chain_to (netOf conns t) v f e).headI) := by
  intro f
  induction f with
  | zero =>
    intro v e he hv hB
    have hch : chain_to (netOf conns t) v 0 e = [e] := rfl
    rw [hch]
    refine chain_singleton_spec ?_
    intro u hu
    by_contra hne
    have hmemu : u ∈ netOf conns t e := by
      rw [hu]; exact List.mem_singleton_self u
    have hcu : conn conns u = some e := (mem_net_iff hnd he).mp hmemu
    have hsubu : SubtreeP conns e u := SubtreeP_one hcu
    obtain ⟨L, hLnd, hLc, hLl⟩ := hB
    have h2 := two_mem_le_length hne (hLc u hsubu) (hLc e (SubtreeP_refl conns e))
    omega
  | succ f ih =>
    intro v e he hv hB
    cases hne : netOf conns t e with
    | nil =>
      have hch : chain_to (netOf conns t) v (f + 1) e = [e] := by
        rw [chain_to, hne]
      rw [hch]
      refine chain_singleton_spec ?_
      intro u hu
      rw [hne] at hu
      exact absurd hu (by simp)
    | cons u us =>
      cases us with
      | cons u2 rest2 =>
        have hch : chain_to (netOf conns t) v (f + 1) e = [e] := by
          rw [chain_to, hne]
        rw [hch]
        refine chain_singleton_spec ?_
        intro u' hu'
        rw [hne] at hu'
        exact absurd hu' (by simp)
      | nil =>
        by_cases hguard : u = e ∨ e ∈ v
        · have hch : chain_to (netOf conns t) v (f + 1) e = [e] := by
            rw [chain_to, hne]
            show (if u = e ∨ e ∈ v then ([e] : List Int)
              else chain_to (netOf conns t) v f u ++ [e]) = [e]
            rw [if_pos hguard]
          rw [hch]
          refine chain_singleton_spec ?_
          intro u' hu'
          rw [hne] at hu'
          have huu : u' = u := by
            simpa using hu'.symm
          rcases hguard with h | h
          · rw [huu, h]
          · exact absurd (hv e h) (fun hcon => hcon (SubtreeP_refl conns e))
        · push_neg at hguard
          obtain ⟨hue, hev⟩ := hguard
          have hch : chain_to (netOf conns t) v (f + 1) e =
              chain_to (netOf conns t) v f u ++ [e] := by
            rw [chain_to, hne]
            show (if u = e ∨ e ∈ v then ([e] : List Int)
              else chain_to (netOf conns t) v f u ++ [e]) =
              chain_to (netOf conns t) v f u ++ [e]
            rw [if_neg (by push_neg; exact ⟨hue, hev⟩)]
          have hmemu : u ∈ netOf conns t e := by
            rw [hne]; exact List.mem_singleton_self u
          have hcu : conn conns u = some e := (mem_net_iff hnd he).mp hmemu
          have hut : SubtreeP conns t u := SubtreeP_step hcu he
          have heu : SubtreeP conns e u := SubtreeP_one hcu
          have hnotue : ¬ SubtreeP conns u e := by
            intro hcon
            exact hue (SubtreeP_antisymm hterm hut heu hcon)
          have hv' : VDisj conns v u :=
            fun x hx hsub => hv x hx (SubtreeP_trans hsub heu)
          have hB' : SubBound conns u (f + 1) := by
            obtain ⟨L, hLnd, hLc, hLl⟩ := hB
            have heL : e ∈ L := hLc e (SubtreeP_refl conns e)
            refine ⟨L.erase e, hLnd.erase e, ?_, ?_⟩
            · intro x hx
              have hxe : x ≠ e := fun hxeq => hnotue (hxeq ▸ hx)
              exact (List.mem_erase_of_ne hxe).mpr
                (hLc x (SubtreeP_trans hx heu))
            · rw [List.length_erase_of_mem heL]
              omega
          obtain ⟨ih1, ih2, ih3, ih4, ih5, ih6⟩ := ih v u hut hv' hB'
          have hch'ne : chain_to (netOf conns t) v f u ≠ [] := by
            intro hnil
            rw [hnil] at ih1
            exact absurd ih1 (by simp)
          rw [hch]
          have hhead : (chain_to (netOf conns t) v f u ++ [e]).headI =
              (chain_to (netOf conns t) v f u).headI :=
            headI_append_of_ne_nil hch'ne
          have humem : u ∈ chain_to (netOf conns t) v f u :=
            List.mem_of_mem_getLast? ih1
          refine ⟨List.getLast?_concat _, ?_, ?_, ?_, ?_, ?_⟩
          · intro x hx
            rcases List.mem_append.mp hx with hx1 | hx2
            · exact SubtreeP_trans (ih2 x hx1) heu
            · rcases List.mem_singleton.mp hx2 with rfl
              exact SubtreeP_refl conns x
          · rw [List.nodup_append]
            refine ⟨ih3, by simp, ?_⟩
            intro a ha ha2
            rcases List.mem_singleton.mp ha2 with rfl
            exact hnotue (ih2 a ha)
          · rw [List.chain'_append]
            refine ⟨ih4, List.chain'_singleton e, ?_⟩
            intro x hx y hy
            have hx2 : x = u := by
              rw [ih1] at hx
              exact (Option.mem_some_iff.mp hx).symm
            have hy2 : y = e := (Option.mem_some_iff.mp hy).symm
            rw [hx2, hy2, hne]
          · rw [hhead]
            exact ih5
          · intro x hx
            rw [hhead]
            rcases List.mem_append.mp hx with hx1 | hx2
            · exact ih6 x hx1
            · rcases List.mem_singleton.mp hx2 with rfl
              exact SubtreeP_trans (ih6 u humem) heu

theorem chain'_pred {R : Int → Int → Prop} :
    ∀ {l : List Int}, l.Chain' R → ∀ z ∈ l, z = l.headI ∨ ∃ w ∈ l, R w z := by
  intro l
  induction l with
  | nil => intro _ z hz; exact absurd hz (List.not_mem_nil z)
  | cons a l ih =>
    intro hch z hz
    rcases List.mem_cons.mp hz with rfl | hz2
    · exact Or.inl rfl
    · cases l with
      | nil => exact absurd hz2 (List.not_mem_nil z)
      | cons b l2 =>
        obtain ⟨hab, htail⟩ := List.chain'_cons.mp hch
        rcases ih htail z hz2 with h1 | ⟨w, hw, hr⟩
        · right
          refine ⟨a, List.mem_cons_self a _, ?_⟩
          rw [show z = b from h1]
          exact hab
        · exact Or.inr ⟨w, List.mem_cons_of_mem a hw, hr⟩

theorem chain_cover {conns : List (Int × Int)}
    (hnd : (conns.map Prod.fst).Nodup) {t e : Int}
    (he : SubtreeP conns t e) {ch : List Int}
    (h1 : ch.getLast? = some e)
    (h2 : ∀ x ∈ ch, SubtreeP conns e x)
    (h4 : ch.Chain' (fun a b => netOf conns t b = [a])) :
    ∀ y, SubtreeP conns e y → y ∈ ch ∨
      ∃ p, p ∈ netOf conns t ch.headI ∧ p ≠ ch.headI ∧ SubtreeP conns p y := by
  have hchne : ch ≠ [] := by
    intro hn
    rw [hn] at h1
    exact absurd h1 (by simp)
  suffices H : ∀ (k : Nat) (y : Int), fwdIter conns k y = some e →
      y ∈ ch ∨ ∃ p, p ∈ netOf conns t ch.headI ∧ p ≠ ch.headI ∧
        SubtreeP conns p y by
    rintro y ⟨k, hk⟩
    exact H k y hk
  intro k
  induction k with
  | zero =>
    intro y hy
    obtain rfl : y = e := Option.some.inj hy
    exact Or.inl (List.mem_of_mem_getLast? h1)
  | succ k ihk =>
    intro y hy
    cases hcy : conn conns y with
    | none => rw [fwdIter, hcy] at hy; exact absurd hy (by simp)
    | some z =>
      have hz : fwdIter conns k z = some e := by
        rw [fwdIter, hcy] at hy
        exact hy
      rcases ihk z hz with hzch | ⟨p, hp1, hp2, hp3⟩
      · by_cases hys : y = ch.headI
        · exact Or.inl (hys ▸ headI_mem_of_ne_nil hchne)
        · rcases chain'_pred h4 z hzch with hzh | ⟨w, hwch, hwz⟩
          · right
            have hhsub : SubtreeP conns t ch.headI :=
              SubtreeP_trans (h2 _ (headI_mem_of_ne_nil hchne)) he
            refine ⟨y, ?_, hys, SubtreeP_refl conns y⟩
            rw [mem_net_iff hnd hhsub, ← hzh]
            exact hcy
          · left
            have hzt : SubtreeP conns t z := SubtreeP_trans (h2 z hzch) he
            have hyz : y ∈ netOf conns t z := (mem_net_iff hnd hzt).mpr hcy
            rw [hwz] at hyz
            rcases List.mem_singleton.mp hyz with rfl
            exact hwch
      · exact Or.inr ⟨p, hp1, hp2, SubtreeP_step hcy hp3⟩

theorem chain_parent_disjoint {conns : List (Int × Int)}
    (hnd : (conns.map Prod.fst).Nodup) {t : Int}
    (hterm : conn conns t = none ∨ conn conns t = some t) {e : Int}
    (he : SubtreeP conns t e) {ch : List Int}
    (h2 : ∀ x ∈ ch, SubtreeP conns e x)
    (h6 : ∀ x ∈ ch, SubtreeP conns x ch.headI)
    {p : Int} (hp : p ∈ netOf conns t ch.headI) (hpt : p ≠ t)
    (hchne : ch ≠ []) :
    ∀ x ∈ ch, ¬ SubtreeP conns p x := by
  intro x hx hsub
  have hsmem : ch.headI ∈ ch := headI_mem_of_ne_nil hchne
  have hst : SubtreeP conns t ch.headI := SubtreeP_trans (h2 _ hsmem) he
  have hcp : conn conns p = some ch.headI := (mem_net_iff hnd hst).mp hp
  obtain ⟨i, hi⟩ := h6 x hx
  obtain ⟨j, hj⟩ := hsub
  have hcyc : fwdPlus conns ch.headI ch.headI := by
    refine ⟨i + j + 1, by omega, ?_⟩
    rw [show i + j + 1 = i + (j + 1) by omega, fwdIter_add, hi]
    simp only [Option.some_bind]
    rw [fwdIter_add conns j 1, hj]
    simp only [Option.some_bind]
    rw [fwdIter_one]
    exact hcp
  obtain ⟨hseq, hself⟩ := fwdPlus_self_collapse hterm hst hcyc
  rw [hseq, fwdIter_self_stable hself] at hi
  obtain rfl := Option.some.inj hi
  rw [fwdIter_self_stable hself] at hj
  exact hpt (Option.some.inj hj).symm

theorem topoOrdered_nil (conns : List (Int × Int)) : TopoOrdered conns [] := by
  intro i j hi
  exact absurd hi (by simp)

theorem topoOrdered_single (conns : List (Int × Int)) (ch : List Int) :
    TopoOrdered conns [ch] := by
  intro i j hi hj hji
  simp only [List.length_singleton] at hi hj
  omega

theorem topoOrdered_append {conns : List (Int × Int)}
    {rs1 rs2 : List (List Int)} (h1 : TopoOrdered conns rs1)
    (h2 : TopoOrdered conns rs2)
    (hcross : ∀ a ∈ rs2.flatten, ∀ B ∈ rs1, ¬ fwdPlus conns a B.headI) :
    TopoOrdered conns (rs1 ++ rs2) := by
  intro i j hi hj hji a ha hplus
  have hi' : i < rs1.length + rs2.length := by
    rw [← List.length_append]; exact hi
  have hj' : j < rs1.length + rs2.length := by
    rw [← List.length_append]; exact hj
  by_cases hi1 : i < rs1.length
  · have hj1 : j < rs1.length := by omega
    rw [List.getElem_append_left hi1] at ha
    rw [List.getElem_append_left hj1] at hplus
    exact h1 i j hi1 hj1 hji a ha hplus
  · push_neg at hi1
    have hi2 : i - rs1.length < rs2.length := by omega
    rw [List.getElem_append_right hi1] at ha
    by_cases hj1 : j < rs1.length
    · rw [List.getElem_append_left hj1] at hplus
      refine hcross a ?_ (rs1[j]) (List.getElem_mem hj1) hplus
      exact List.mem_flatten.mpr ⟨rs2[i - rs1.length], List.getElem_mem hi2, ha⟩
    · push_neg at hj1
      have hj2 : j - rs1.length < rs2.length := by omega
      rw [List.getElem_append_right hj1] at hplus
      exact h2 (i - rs1.length) (j - rs1.length) hi2 hj2 (by omega) a ha hplus

theorem goL_spec {conns : List (Int × Int)} {t : Int} {f : Nat}
    (IH : ∀ (v : List Int) (e : Int), SubtreeP conns t e → VDisj conns v e →
      SubBound conns e f → GoOut conns v e (go (netOf conns t) f v e)) :
    ∀ (ps : List Int) (v : List Int),
      (∀ p ∈ ps, SubtreeP conns t p) →
      (∀ p ∈ ps, p ∉ v → VDisj conns v p ∧ SubBound conns p f) →
      List.Pairwise (fun p q => p ∉ v → q ∉ v →
        ∀ x, ¬ (SubtreeP conns p x ∧ SubtreeP conns q x)) ps →
      (∀ x, x ∈ (goL (go (netOf conns t) f) v ps).1 ↔
        x ∈ v ∨ x ∈ (goL (go (netOf conns t) f) v ps).2.flatten) ∧
      (∀ x, x ∈ (goL (go (netOf conns t) f) v ps).2.flatten ↔
        ∃ p ∈ ps, p ∉ v ∧ SubtreeP conns p x) ∧
      (goL (go (netOf conns t) f) v ps).2.flatten.Nodup ∧
      (∀ B ∈ (goL (go (netOf conns t) f) v ps).2, B ≠ []) ∧
      TopoOrdered conns (goL (go (netOf conns t) f) v ps).2 := by
  intro ps
  induction ps with
  | nil =>
    intro v _ _ _
    refine ⟨?_, ?_, ?_, ?_, ?_⟩ <;>
      simp [goL, topoOrdered_nil]
  | cons p ps' ih =>
    intro v hp_t hpre hpair
    obtain ⟨hhead, htail⟩ := List.pairwise_cons.mp hpair
    by_cases hpv : p ∈ v
    · have hgl : goL (go (netOf conns t) f) v (p :: ps') =
          goL (go (netOf conns t) f) v ps' := by
        rw [goL, if_pos hpv]
      rw [hgl]
      obtain ⟨c1, c2, c3, c4, c5⟩ := ih v
        (fun q hq => hp_t q (List.mem_cons_of_mem p hq))
        (fun q hq => hpre q (List.mem_cons_of_mem p hq)) htail
      refine ⟨c1, ?_, c3, c4, c5⟩
      intro x
      rw [c2 x]
      constructor
      · rintro ⟨q, hq, hqv, hsub⟩
        exact ⟨q, List.mem_cons_of_mem p hq, hqv, hsub⟩
      · rintro ⟨q, hq, hqv, hsub⟩
        rcases List.mem_cons.mp hq with rfl | hq2
        · exact absurd hpv hqv
        · exact ⟨q, hq2, hqv, hsub⟩
    · have hgl : goL (go (netOf conns t) f) v (p :: ps') =
          ((goL (go (netOf conns t) f) (go (netOf conns t) f v p).1 ps').1,
           (go (netOf conns t) f v p).2 ++
             (goL (go (netOf conns t) f) (go (netOf conns t) f v p).1 ps').2) := by
        rw [goL, if_neg hpv]
      obtain ⟨hvd, hsb⟩ := hpre p (List.mem_cons_self p ps') hpv
      obtain ⟨g1, g2, g3, g4, g5⟩ := IH v p (hp_t p (List.mem_cons_self p ps')) hvd hsb
      have hqv_of : ∀ q ∈ ps', q ∉ (go (netOf conns t) f v p).1 → q ∉ v :=
        fun q _ hq1 hqv => hq1 ((g1 q).mpr (Or.inl hqv))
      have hq_notfl : ∀ q ∈ ps', q ∉ v →
          q ∉ (go (netOf conns t) f v p).2.flatten := by
        intro q hq hqv hqfl
        exact hhead q hq hpv hqv q ⟨(g2 q).mp hqfl, SubtreeP_refl conns q⟩
      have hq_notin1 : ∀ q ∈ ps', q ∉ v → q ∉ (go (netOf conns t) f v p).1 := by
        intro q hq hqv hq1
        rcases (g1 q).mp hq1 with h | h
        · exact hqv h
        · exact hq_notfl q hq hqv h
      have hpre' : ∀ q ∈ ps', q ∉ (go (netOf conns t) f v p).1 →
          VDisj conns (go (netOf conns t) f v p).1 q ∧ SubBound conns q f := by
        intro q hq hq1
        have hqv : q ∉ v := hqv_of q hq hq1
        obtain ⟨hvd2, hsb2⟩ := hpre q (List.mem_cons_of_mem p hq) hqv
        refine ⟨?_, hsb2⟩
        intro x hx hsubx
        rcases (g1 x).mp hx with hx1 | hx2
        · exact hvd2 x hx1 hsubx
        · exact hhead q hq hpv hqv x ⟨(g2 x).mp hx2, hsubx⟩
      have hpair' : List.Pairwise (fun a b => a ∉ (go (netOf conns t) f v p).1 →
          b ∉ (go (netOf conns t) f v p).1 →
          ∀ x, ¬ (SubtreeP conns a x ∧ SubtreeP conns b x)) ps' := by
        refine htail.imp_of_mem ?_
        intro a b ha hb hr h1 h2
        exact hr (hqv_of a ha h1) (hqv_of b hb h2)
      obtain ⟨c1, c2, c3, c4, c5⟩ := ih (go (netOf conns t) f v p).1
        (fun q hq => hp_t q (List.mem_cons_of_mem p hq)) hpre' hpair'
      rw [hgl]
      refine ⟨?_, ?_, ?_, ?_, ?_⟩
      · intro x
        rw [c1 x, g1 x, List.flatten_append, List.mem_append, or_assoc]
      · intro x
        rw [List.flatten_append, List.mem_append, g2 x, c2 x]
        constructor
        · rintro (hsub | ⟨q, hq, hqv1, hsub⟩)
          · exact ⟨p, List.mem_cons_self p ps', hpv, hsub⟩
          · exact ⟨q, List.mem_cons_of_mem p hq, hqv_of q hq hqv1, hsub⟩
        · rintro ⟨q, hq, hqv, hsub⟩
          rcases List.mem_cons.mp hq with rfl | hq2
          · exact Or.inl hsub
          · exact Or.inr ⟨q, hq2, hq_notin1 q hq2 hqv, hsub⟩
      · rw [List.flatten_append, List.nodup_append]
        refine ⟨g3, c3, ?_⟩
        intro a ha ha2
        obtain ⟨q, hq, hqv1, hsub⟩ := (c2 a).mp ha2
        exact hhead q hq hpv (hqv_of q hq hqv1) a ⟨(g2 a).mp ha, hsub⟩
      · intro B hB
        rcases List.mem_append.mp hB with hB1 | hB2
        · exact g4 B hB1
        · exact c4 B hB2
      · refine topoOrdered_append g5 c5 ?_
        intro a ha B hBmem hplus
        obtain ⟨q, hq, hqv1, hsub⟩ := (c2 a).mp ha
        have hBne : B ≠ [] := g4 B hBmem
        have hhd : B.headI ∈ (go (netOf conns t) f v p).2.flatten :=
          List.mem_flatten.mpr ⟨B, hBmem, headI_mem_of_ne_nil hBne⟩
        have hsubp : SubtreeP conns p B.headI := (g2 _).mp hhd
        obtain ⟨k, hk0, hk⟩ := hplus
        have hsubBa : SubtreeP conns B.headI a := ⟨k, hk⟩
        exact hhead q hq hpv (hqv_of q hq hqv1) a
          ⟨SubtreeP_trans hsubBa hsubp, hsub⟩

theorem go_spec {conns : List (Int × Int)}
    (hnd : (conns.map Prod.fst).Nodup) {t : Int}
    (hterm : conn conns t = none ∨ conn conns t = some t) :
    ∀ (f : Nat) (v : List Int) (e : Int), SubtreeP conns t e →
      VDisj conns v e → SubBound conns e f →
      GoOut conns v e (go (netOf conns t) f v e) := by
  intro f
  induction f with
  | zero =>
    intro v e he hv hB
    exfalso
    obtain ⟨L, hLnd, hLc, hLl⟩ := hB
    have heL : e ∈ L := hLc e (SubtreeP_refl conns e)
    have : 0 < L.length := List.length_pos.mpr (List.ne_nil_of_mem heL)
    omega
  | succ f ihf =>
    intro v e he hv hB
    have hB2 : SubBound conns e (f + 1 + 1) := by
      obtain ⟨L, hL1, hL2, hL3⟩ := hB
      exact ⟨L, hL1, hL2, by omega⟩
    obtain ⟨h1, h2, h3, h4, h5, h6⟩ :=
      chain_to_spec hnd hterm (f + 1) v e he hv hB2
    set ch := chain_to (netOf conns t) v (f + 1) e with hchdef
    have hchne : ch ≠ [] := by
      intro hn
      rw [hn] at h1
      exact absurd h1 (by simp)
    have hsch : ch.headI ∈ ch := headI_mem_of_ne_nil hchne
    have hse : SubtreeP conns e ch.headI := h2 _ hsch
    have hst : SubtreeP conns t ch.headI := SubtreeP_trans hse he
    have hech : e ∈ ch := List.mem_of_mem_getLast? h1
    have hparent : ∀ p ∈ netOf conns t ch.headI, conn conns p = some ch.headI :=
      fun p hp => (mem_net_iff hnd hst).mp hp
    have hpt : ∀ p ∈ netOf conns t ch.headI, p ≠ ch.headI → p ≠ t := by
      intro p hp hps hpt2
      subst hpt2
      exact hps (conn_t_forces hterm (hparent p hp)).symm
    have hchdisj : ∀ p ∈ netOf conns t ch.headI, p ≠ ch.headI →
        ∀ x ∈ ch, ¬ SubtreeP conns p x := by
      intro p hp hps
      exact chain_parent_disjoint hnd hterm he h2 h6 hp
        (hpt p hp hps) hchne
    have hps_t : ∀ p ∈ netOf conns t ch.headI, SubtreeP conns t p :=
      fun p hp => SubtreeP_step (hparent p hp) hst
    have hp_sub_e : ∀ p ∈ netOf conns t ch.headI, SubtreeP conns e p :=
      fun p hp => SubtreeP_trans (SubtreeP_one (hparent p hp)) hse
    have hnotinv1 : ∀ p ∈ netOf conns t ch.headI, p ∉ v ++ ch →
        p ≠ ch.headI ∧ p ≠ t := by
      intro p hp hpv1
      have hps : p ≠ ch.headI := fun heq =>
        hpv1 (List.mem_append.mpr (Or.inr (heq ▸ hsch)))
      exact ⟨hps, hpt p hp hps⟩
    have hpre : ∀ p ∈ netOf conns t ch.headI, p ∉ v ++ ch →
        VDisj conns (v ++ ch) p ∧ SubBound conns p f := by
      intro p hp hpv1
      obtain ⟨hps, -⟩ := hnotinv1 p hp hpv1
      constructor
      · intro x hx hsub
        rcases List.mem_append.mp hx with hx1 | hx2
        · exact hv x hx1 (SubtreeP_trans hsub (hp_sub_e p hp))
        · exact hchdisj p hp hps x hx2 hsub
      · obtain ⟨L, hLnd, hLc, hLl⟩ := hB
        have heL : e ∈ L := hLc e (SubtreeP_refl conns e)
        refine ⟨L.erase e, hLnd.erase e, ?_, ?_⟩
        · intro x hx
          have hxe : x ≠ e := by
            rintro rfl
            exact hchdisj p hp hps x hech hx
          exact (List.mem_erase_of_ne hxe).mpr
            (hLc x (SubtreeP_trans hx (hp_sub_e p hp)))
        · rw [List.length_erase_of_mem heL]
          omega
    have hpair : List.Pairwise (fun a b => a ∉ v ++ ch → b ∉ v ++ ch →
        ∀ x, ¬ (SubtreeP conns a x ∧ SubtreeP conns b x))
        (netOf conns t ch.headI) := by
      refine (net_nodup hnd t ch.headI).imp_of_mem ?_
      intro a b ha hb hab hnotin1 hnotin2
      obtain ⟨has, hat⟩ := hnotinv1 a ha hnotin1
      obtain ⟨hbs, hbt⟩ := hnotinv1 b hb hnotin2
      rintro x ⟨hxa, hxb⟩
      exact sibling_disjoint hterm hst (hparent a ha) (hparent b hb)
        hab hat hbt x hxa hxb
    obtain ⟨c1, c2, c3, c4, c5⟩ :=
      goL_spec ihf (netOf conns t ch.headI) (v ++ ch) hps_t hpre hpair
    have hgo : go (netOf conns t) (f + 1) v e =
        ((goL (go (netOf conns t) f) (v ++ ch) (netOf conns t ch.headI)).1,
         (goL (go (netOf conns t) f) (v ++ ch) (netOf conns t ch.headI)).2 ++
           [ch]) := by
      rw [go]
    rw [hgo]
    refine ⟨?_, ?_, ?_, ?_, ?_⟩
    · intro x
      rw [c1 x]
      simp only [List.flatten_append, List.flatten_cons, List.flatten_nil,
        List.append_nil, List.mem_append]
      tauto
    · intro x
      simp only [List.flatten_append, List.flatten_cons, List.flatten_nil,
        List.append_nil, List.mem_append]
      constructor
      · rintro (hx1 | hx2)
        · obtain ⟨p, hp, hpv1, hsub⟩ := (c2 x).mp hx1
          exact SubtreeP_trans hsub (hp_sub_e p hp)
        · exact h2 x hx2
      · intro hx
        rcases chain_cover hnd he h1 h2 h4 x hx with hxch | ⟨p, hp, hps, hsub⟩
        · exact Or.inr hxch
        · left
          refine (c2 x).mpr ⟨p, hp, ?_, hsub⟩
          intro hpv1
          rcases List.mem_append.mp hpv1 with hp1 | hp2
          · exact hv p hp1 (hp_sub_e p hp)
          · exact hchdisj p hp hps p hp2 (SubtreeP_refl conns p)
    · simp only [List.flatten_append, List.flatten_cons, List.flatten_nil,
        List.append_nil]
      rw [List.nodup_append]
      refine ⟨c3, h3, ?_⟩
      intro a ha hach
      obtain ⟨p, hp, hpv1, hsub⟩ := (c2 a).mp ha
      obtain ⟨hps, -⟩ := hnotinv1 p hp hpv1
      exact hchdisj p hp hps a hach hsub
    · intro B hB3
      rcases List.mem_append.mp hB3 with hB1 | hB2
      · exact c4 B hB1
      · rcases List.mem_singleton.mp hB2 with rfl
        exact hchne
    · refine topoOrdered_append c5 (topoOrdered_single conns ch) ?_
      intro a ha B hBmem hplus
      simp only [List.flatten_cons, List.flatten_nil, List.append_nil] at ha
      have hBne : B ≠ [] := c4 B hBmem
      have hhd : B.headI ∈
          (goL (go (netOf conns t) f) (v ++ ch)
            (netOf conns t ch.headI)).2.flatten :=
        List.mem_flatten.mpr ⟨B, hBmem, headI_mem_of_ne_nil hBne⟩
      obtain ⟨p, hp, hpv1, hsub⟩ := (c2 _).mp hhd
      obtain ⟨k, hk0, hk⟩ := hplus
      obtain ⟨hps, -⟩ := hnotinv1 p hp hpv1
      exact hchdisj p hp hps a ha (SubtreeP_trans ⟨k, hk⟩ hsub)

theorem reaches_goOut {α : Type} (tbl : List (Row α))
    (hnd : (tbl.map Row.id).Nodup) {t : Int}
    (ht : t ∈ rootsOf (pipeline_conns tbl)) :
    GoOut (pipeline_conns tbl) [] t
      (go (netOf (pipeline_conns tbl) t)
        ((pipeline_conns tbl).length + 2) [] t) := by
  have hndk : ((pipeline_conns tbl).map Prod.fst).Nodup := by
    rw [pipeline_keys α tbl]; exact hnd
  have hterm := (mem_rootsOf_iff.mp ht).2
  refine go_spec hndk hterm _ [] t (SubtreeP_refl _ t) ?_ ?_
  · intro x hx
    exact absurd hx (List.not_mem_nil x)
  · refine ⟨(t :: (pipeline_conns tbl).map Prod.fst).dedup,
      List.nodup_dedup _, ?_, ?_⟩
    · rintro x ⟨k, hk⟩
      rw [List.mem_dedup]
      cases k with
      | zero => exact List.mem_cons.mpr (Or.inl (Option.some.inj hk))
      | succ k =>
        cases hc : conn (pipeline_conns tbl) x with
        | none => rw [fwdIter, hc] at hk; exact absurd hk (by simp)
        | some m =>
          exact List.mem_cons.mpr
            (Or.inr (List.mem_map_of_mem Prod.fst (conn_mem hc)))
    · have hsub :=
        (List.dedup_sublist (t :: (pipeline_conns tbl).map Prod.fst)).length_le
      simp only [List.length_cons, List.length_map] at hsub
      omega

/-- C6: for every table keyed by unique ids and every tailwater of the
pipeline's output, flattening the ordered reach sequence yields exactly the
member node set of the corresponding independent network, each node exactly
once. -/
theorem c6_flatten_reaches_eq_members (α : Type) (tbl : List (Row α))
    (hnd : (tbl.map Row.id).Nodup) (t : Int) (rs : List (List Int))
    (net2 : List (Int × List Int))
    (hrs : (t, rs) ∈ reaches_bytw (pipeline_conns tbl))
    (hnet : (t, net2) ∈ independent_networks (pipeline_conns tbl)) :
    rs.flatten.Nodup ∧
    ∀ x, x ∈ rs.flatten ↔ x ∈ net2.map Prod.fst := by
  have hndk : ((pipeline_conns tbl).map Prod.fst).Nodup := by
    rw [pipeline_keys α tbl]; exact hnd
  obtain ⟨t1, ht1, heq1⟩ := List.mem_map.mp hrs
  have heqt : t1 = t := congrArg Prod.fst heq1
  subst heqt
  have heqrs : reaches_for (pipeline_conns tbl) t1 = rs :=
    congrArg Prod.snd heq1
  subst heqrs
  obtain ⟨t2, ht2, heq2⟩ := List.mem_map.mp hnet
  have heqt2 : t2 = t1 := congrArg Prod.fst heq2
  subst heqt2
  have heqnet : (membersList (pipeline_conns tbl) t2).map
      (fun n => (n, rconn (pipeline_conns tbl) n)) = net2 :=
    congrArg Prod.snd heq2
  have hfst : net2.map Prod.fst = membersList (pipeline_conns tbl) t2 := by
    rw [← heqnet, List.map_map]
    have hcomp : (Prod.fst ∘ fun n => (n, rconn (pipeline_conns tbl) n)) =
        (id : Int → Int) := rfl
    rw [hcomp, List.map_id]
  obtain ⟨g1, g2, g3, g4, g5⟩ := reaches_goOut tbl hnd ht2
  refine ⟨g3, ?_⟩
  intro x
  rw [hfst, mem_membersList_iff hndk]
  exact g2 x

/-- Witness for C6 at the 7-row table and its tailwater -20427622. -/
theorem c6_flatten_reaches_eq_members_witness :
    (tbl7.map Row.id).Nodup ∧
    ([[20429540, 20427704], [20429612], [20429616], [20429532, 20427706],
      [20427622, -20427622]] : List (List Int)).flatten.Nodup ∧
    ∀ x, x ∈ ([[20429540, 20427704], [20429612], [20429616],
      [20429532, 20427706], [20427622, -20427622]] : List (List Int)).flatten ↔
      x ∈ ([(-20427622, [20427622]), (20427622, [20427704, 20427706]),
        (20427704, [20429540]), (20427706, [20429532]), (20429540, []),
        (20429532, [20429612, 20429616]), (20429612, []),
        (20429616, [])] : List (Int × List Int)).map Prod.fst := by
  refine ⟨by decide, ?_⟩
  exact c6_flatten_reaches_eq_members Unit tbl7 (by decide) (-20427622) _ _
    (by decide) (by decide)

/-- C5: for every table keyed by unique ids, every tailwater of the
pipeline's output and every pair of distinct reaches in its ordered
sequence, if some node of the reach at position i feeds (is upstream of) the
first node of the reach at position j, then i < j: the feeding reach comes
strictly first. -/
theorem c5_reaches_topologically_ordered (α : Type) (tbl : List (Row α))
    (hnd : (tbl.map Row.id).Nodup) (t : Int) (rs : List (List Int))
    (hrs : (t, rs) ∈ reaches_bytw (pipeline_conns tbl))
    (i j : Nat) (hi : i < rs.length) (hj : j < rs.length) (hij : i ≠ j)
    (a : Int) (ha : a ∈ rs[i])
    (hfeeds : fwdPlus (pipeline_conns tbl) a (rs[j]).headI) : i < j := by
  obtain ⟨t1, ht1, heq1⟩ := List.mem_map.mp hrs
  have heqt : t1 = t := congrArg Prod.fst heq1
  subst heqt
  have heqrs : reaches_for (pipeline_conns tbl) t1 = rs :=
    congrArg Prod.snd heq1
  subst heqrs
  obtain ⟨g1, g2, g3, g4, g5⟩ := reaches_goOut tbl hnd ht1
  by_contra hnot
  have hji : j < i := by omega
  exact g5 i j hi hj hji a ha hfeeds

/-- Witness for C5 at the 7-row table: the leaf reach [20429540, 20427704]
(position 0) feeds the junction chain (position 4), and 0 < 4. -/
theorem c5_reaches_topologically_ordered_witness :
    (tbl7.map Row.id).Nodup ∧ (0 : Nat) < 4 := by
  refine ⟨by decide, ?_⟩
  exact c5_reaches_topologically_ordered Unit tbl7 (by decide) (-20427622)
    [[20429540, 20427704], [20429612], [20429616], [20429532, 20427706],
     [20427622, -20427622]] (by decide) 0 4 (by decide) (by decide)
    (by decide) 20427704 (by decide) ⟨1, by decide, by decide⟩
